import Mathlib

set_option maxRecDepth 10000
set_option maxHeartbeats 1000000
set_option synthInstance.maxSize 2048

/-!
A shallow embedding of the A0LREe repository (Python) in Lean 4.

Source files embedded: `automaton.py`, `a0-learner.py`, `re_parser.py`,
`nested_re.py`.  Rendering / Qt / graphviz statements and `print` calls are
I/O-only and are omitted; everything that touches the data model is embedded
faithfully, including partial behaviour: places where the Python code would
raise (`IndexError` on list indexing, `AttributeError` on a missing
attribute or on `None.index`, `NameError` on an undefined name,
`ValueError` on `list.remove`) are modelled in an `Except PyErr` monad.
Loops whose termination Python leaves implicit carry explicit fuel; the
fuel-exhausted outcome is a distinguished error that never occurs in the
concrete runs below.
-/

namespace A0

/-- Python runtime errors that the embedded code can raise. -/
inductive PyErr where
  | indexError
  | attributeError
  | nameError
  | valueError
  | fuelExhausted
deriving DecidableEq, Repr

/-- Checked list indexing: `l[i]` in Python (`IndexError` out of range). -/
def mget {α : Type} (l : List α) (i : Nat) : Except PyErr α :=
  match l.get? i with
  | some x => .ok x
  | none => .error .indexError

/-- The edge matrix: cell `(i, j)` is the list of labels of edges `i → j`. -/
abbrev Mat := List (List (List String))

/-- Checked 2-d read `edges[i][j]`. -/
def mget2 (E : Mat) (i j : Nat) : Except PyErr (List String) := do
  let row ← mget E i
  mget row j

/-- Unchecked 2-d write `edges[i][j] = v`; used only after a checked read
has established that `(i, j)` is in range (as the Python code does). -/
def setCell (E : Mat) (i j : Nat) (v : List String) : Mat :=
  E.set i (((E.get? i).getD []).set j v)

/-- `class Node` of `automaton.py` (the `edges` object list and the `Edge`
class are used only by `Node.find_nd_*` / `Automaton.merge_*_nd_edges`,
which no code embedded here calls, so they are omitted). -/
structure Node where
  index : Nat
  label : String
  is_initial : Bool
  is_final : Bool
deriving DecidableEq, Repr

/-- `class Automaton` of `automaton.py`.  `root` and `accepting` hold node
indices: Python stores object references, and since indices are unique
(`node_index` is never decremented) object identity coincides with index
equality. -/
structure Automaton where
  nodes : List Node
  node_index : Nat
  root : Option Nat
  accepting : List Nat
  deleted : List Nat
  esize : Nat
  edges : Mat
deriving DecidableEq, Repr

/-- `Automaton.__init__`: 100×100 matrix of empty label lists. -/
def Automaton.fresh : Automaton :=
  { nodes := []
    node_index := 0
    root := none
    accepting := []
    deleted := []
    esize := 100
    edges := List.replicate 100 (List.replicate 100 ([] : List String)) }

/-- `Automaton.expand_edges`: doubles `esize` first, then rebuilds the
matrix with `new_edges[j][i] = edges[i][j]` for `i, j ≤ node_index`
(the comprehension's guard reads `self.edges[i][j]`, an `IndexError`
whenever `node_index` reaches beyond the old matrix). -/
def Automaton.expand_edges (A : Automaton) : Except PyErr Automaton := do
  let esize' := A.esize * 2
  let E' ← (List.range esize').mapM (fun j =>
    (List.range esize').mapM (fun i =>
      if i ≤ A.node_index ∧ j ≤ A.node_index then mget2 A.edges i j
      else pure ([] : List String)))
  pure { A with esize := esize', edges := E' }

/-- `Automaton.add_node`. -/
def Automaton.add_node (A : Automaton) (is_initial is_final : Bool)
    (label : String) : Except PyErr (Automaton × Node) := do
  let A ← if A.nodes.length > A.esize then A.expand_edges else pure A
  let node : Node := ⟨A.node_index, label, is_initial, is_final⟩
  let A := { A with node_index := A.node_index + 1, nodes := A.nodes ++ [node] }
  let A := if A.root.isNone ∨ is_initial then { A with root := some node.index } else A
  let A := if is_final then { A with accepting := A.accepting ++ [node.index] } else A
  pure (A, node)

/-- Remove the first occurrence of `x`; Python's `list.remove` raises
`ValueError` when `x` is absent. -/
def pyRemove {α : Type} [DecidableEq α] : List α → α → Except PyErr (List α)
  | [], _ => .error .valueError
  | y :: ys, x => if y = x then .ok ys else do pure (y :: (← pyRemove ys x))

/-- `Automaton.delete_node`. -/
def Automaton.delete_node (A : Automaton) (n : Node) : Except PyErr Automaton := do
  let A := { A with deleted := if n.index ∈ A.deleted then A.deleted else A.deleted ++ [n.index] }
  let nodes' ← pyRemove A.nodes n
  let A := { A with nodes := nodes' }
  if n.index ∈ A.accepting then do
    let acc' ← pyRemove A.accepting n.index
    pure { A with accepting := acc' }
  else pure A

/-- `Automaton.add_edge`: `self.edges[n1.index][n2.index].append(label)`. -/
def Automaton.add_edge (A : Automaton) (i j : Nat) (label : String) :
    Except PyErr Automaton := do
  let cell ← mget2 A.edges i j
  pure { A with edges := setCell A.edges i j (cell ++ [label]) }

/-- `Automaton.add_edges`: assigns the label list if the cell is empty,
otherwise appends the labels not already present. -/
def Automaton.add_edges (A : Automaton) (i j : Nat) (labels : List String) :
    Except PyErr Automaton := do
  let cell ← mget2 A.edges i j
  if cell.isEmpty then
    pure { A with edges := setCell A.edges i j labels }
  else
    let cell' := labels.foldl (fun c l => if l ∈ c then c else c ++ [l]) cell
    pure { A with edges := setCell A.edges i j cell' }

/-- One `(i, j)` iteration of the edge-reassignment loop in
`Automaton.merge_nodes`.  Note the source's `self.nodes[j]` /
`self.nodes[i]`: a *positional* lookup in the live-node list, not a lookup
of the node whose matrix index is `j` (an `IndexError` when the position
is beyond the list). -/
def Automaton.mergeStep (mi : List Nat) (newIdx : Nat) (A : Automaton)
    (i j : Nat) : Except PyErr Automaton := do
  let cell ← mget2 A.edges i j
  if ¬cell.isEmpty ∧ (i ∈ mi ∨ j ∈ mi) then do
    let A ←
      if i = j ∨ (i ∈ mi ∧ j ∈ mi) then A.add_edges newIdx newIdx cell
      else if i ∈ mi then do
        let nj ← mget A.nodes j
        A.add_edges newIdx nj.index cell
      else do
        let ni ← mget A.nodes i
        A.add_edges ni.index newIdx cell
    pure { A with edges := setCell A.edges i j [] }
  else pure A

/-- `Automaton.merge_nodes`. -/
def Automaton.merge_nodes (A : Automaton) (ns : List Node) (new_label : String) :
    Except PyErr (Automaton × Node) := do
  let (A, newNode) ← A.add_node (ns.any (·.is_initial)) (ns.any (·.is_final)) new_label
  let mi := ns.map (·.index)
  let A ← (List.range (A.node_index + 1)).foldlM (fun A i =>
    (List.range (A.node_index + 1)).foldlM (fun A j =>
      Automaton.mergeStep mi newNode.index A i j) A) A
  let A ← ns.foldlM Automaton.delete_node A
  let A := if newNode.is_initial then { A with root := some newNode.index } else A
  let A := if newNode.is_final then { A with accepting := [newNode.index] } else A
  pure (A, newNode)

/-! ## `a0-learner.py` -/

/-- Code-point-wise `≤` on strings, as Python's `sorted` compares them. -/
def strLeB (a b : String) : Bool :=
  go a.toList b.toList
where
  go : List Char → List Char → Bool
    | [], _ => true
    | _ :: _, [] => false
    | x :: xs, y :: ys => if x < y then true else if y < x then false else go xs ys

/-- Ordered insertion for `pySortedSet`. -/
def strInsert (x : String) : List String → List String
  | [] => [x]
  | y :: ys => if strLeB x y then x :: y :: ys else y :: strInsert x ys

/-- `sorted(set(examples))`: the distinct examples in code-point order. -/
def pySortedSet (l : List String) : List String :=
  l.dedup.foldr strInsert []

/-- Ordered insertion of characters. -/
def charInsert (x : Char) : List Char → List Char
  | [] => [x]
  | y :: ys => if x ≤ y then x :: y :: ys else y :: charInsert x ys

/-- `self.Σ = {char for s in self.S for char in s}`: the alphabet.  A Python
set iterates in an unspecified order; this embedding fixes the sorted
order.  No theorem below depends on the iteration order: in every run
examined, the stage-C scans either perform no merge at all or iterate over
an empty alphabet. -/
def sigmaOf (S : List String) : List Char :=
  ((S.foldr (fun s acc => s.toList ++ acc) []).dedup).foldr charInsert []

/-- `class A0Learner` state. -/
structure A0Learner where
  A : Automaton
  S : List String
  sigma : List Char
  root : Nat
deriving DecidableEq, Repr

/-- `A0Learner.__init__`: sorts and deduplicates the examples, creates the
root (final iff the first sorted example is the empty string — an
`IndexError` when the example set is empty), then drops the empty string
from the example list.  No dedicated error type exists in the source. -/
def A0Learner.init (examples : List String) : Except PyErr A0Learner := do
  let A := Automaton.fresh
  let S := pySortedSet examples
  let sg := sigmaOf S
  let s0 ← mget S 0
  let (A, rootNode) ← A.add_node true (s0 = "") ""
  let S := if s0 = "" then S.drop 1 else S
  pure ⟨A, S, sg, rootNode.index⟩

/-- The common-prefix scan of `construct_prefix_tree`:
`i = 0; for i in range(min(len(s), len(prefix_path))): if s[i] != prefix_path[i][0]: break`.
When every compared character matches and at least one comparison happens,
Python's loop variable stops at `min - 1`, not `min`. -/
def findIAux : Nat → List Char → List (Char × Nat) → Nat
  | k, c :: cs, (pc, _) :: ps =>
      if c ≠ pc then k
      else
        match cs, ps with
        | [], _ => k
        | _, [] => k
        | _ :: _, _ :: _ => findIAux (k + 1) cs ps
  | k, _, _ => k

/-- The chain-building loop of `construct_prefix_tree`: one fresh node per
remaining character, the last one accepting. -/
def buildChain (rootIdx : Nat) :
    Automaton → List (Char × Nat) → List Char →
    Except PyErr (Automaton × List (Char × Nat))
  | A, path, [] => .ok (A, path)
  | A, path, c :: rest => do
      let prev := match path.getLast? with
        | some (_, idx) => idx
        | none => rootIdx
      let (A, node) ← A.add_node false rest.isEmpty ""
      let A ← A.add_edge prev node.index (String.mk [c])
      buildChain rootIdx A (path ++ [(c, node.index)]) rest

/-- `A0Learner.construct_prefix_tree`. -/
def A0Learner.construct_prefix_tree (L : A0Learner) : Except PyErr A0Learner := do
  let (A, _) ← L.S.foldlM
    (fun (acc : Automaton × List (Char × Nat)) s => do
      let (A, path) := acc
      let sc := s.toList
      let i := findIAux 0 sc path
      let path := path.take i
      buildChain L.root A path (sc.drop path.length))
    (L.A, ([] : List (Char × Nat)))
  pure { L with A := A }

/-- `A0Learner.merge_final_states`: `self.A.merge_nodes(list(self.A.accepting_nodes))`.
The Python list holds node objects; the embedding recovers them from the
live-node list (they are always present there for reachable states). -/
def A0Learner.merge_final_states (L : A0Learner) : Except PyErr A0Learner := do
  let ns ← L.A.accepting.mapM (fun a =>
    match L.A.nodes.find? (fun n => n.index = a) with
    | some n => Except.ok n
    | none => Except.error PyErr.valueError)
  let (A, _) ← L.A.merge_nodes ns ""
  pure { L with A := A }

/-- The innermost collection loop of the stage-C "outgoing" pass: for a
fixed node `n` and symbol `char` it gathers every other live node `c` with
`char in self.A.edges[c.index][n.index]` — i.e. the *sources* of
`char`-labelled edges INTO `n`, although the surrounding code is commented
as merging outgoing nondeterminism. -/
def ndCollect (A : Automaton) (n : Node) (char : Char) :
    Except PyErr (List Node) :=
  A.nodes.foldlM
    (fun acc c => do
      if c.index ∈ A.deleted ∨ c.index = n.index then pure acc
      else do
        let cell ← mget2 A.edges c.index n.index
        if String.mk [char] ∈ cell then pure (acc ++ [c]) else pure acc)
    []

/-- The per-symbol body of a stage-C scan: collect, then merge when more
than one node was found. -/
def ndCharStep (n : Node) (AStill : Automaton × Bool) (char : Char) :
    Except PyErr (Automaton × Bool) := do
  let (A, still) := AStill
  let nd ← ndCollect A n char
  if nd.length > 1 then do
    let (A, _) ← A.merge_nodes nd ""
    pure (A, true)
  else pure (A, still)

/-- One full scan of a stage-C pass (both passes of
`A0Learner.merge_nd_edges` have identical bodies: each examines
`edges[other][n]`, the incoming edges of `n`). -/
def ndScan (sigma : List Char) (A : Automaton) : Except PyErr (Automaton × Bool) :=
  A.nodes.foldlM
    (fun (AStill : Automaton × Bool) n => do
      let (A, still) := AStill
      if n.index ∈ A.deleted then pure (A, still)
      else sigma.foldlM (ndCharStep n) (A, still))
    (A, false)

/-- A stage-C `while still_nd` loop, with fuel. -/
def ndLoop : Nat → List Char → Automaton → Except PyErr Automaton
  | 0, _, _ => .error .fuelExhausted
  | fuel + 1, sigma, A => do
      let (A, still) ← ndScan sigma A
      if still then ndLoop fuel sigma A else pure A

/-- `A0Learner.merge_nd_edges`: the "outgoing" fixpoint followed by the
"incoming" fixpoint (their loop bodies are textually identical in the
source). -/
def A0Learner.merge_nd_edges (L : A0Learner) : Except PyErr A0Learner := do
  let A ← ndLoop (L.A.nodes.length + 2) L.sigma L.A
  let A ← ndLoop (A.nodes.length + 2) L.sigma A
  pure { L with A := A }

/-- `A0Learner.learn`. -/
def A0Learner.learn (L : A0Learner) : Except PyErr A0Learner := do
  let L ← L.construct_prefix_tree
  let L ← L.merge_final_states
  L.merge_nd_edges

/-! ## `nested_re.py` -/

mutual

/-- `class NestedRE`: `exp` is either a string or a list of nested
expressions, `closure` is one of `''`, `'*'`, `'+'`, `'?'` (any string is
accepted by the source).  The nested list is represented by the mutual
type `NREList` (isomorphic to `List NestedRE`) so that flattening is
structural recursion. -/
inductive NestedRE where
  | str (exp : String) (closure : String)
  | lst (exp : NREList) (closure : String)

inductive NREList where
  | nil
  | cons (head : NestedRE) (tail : NREList)

end

/-- The `closure` attribute. -/
def NestedRE.closure : NestedRE → String
  | .str _ c => c
  | .lst _ c => c

/-- `NestedRE.__bool__`: truthiness of `self.exp`. -/
def NestedRE.toBool : NestedRE → Bool
  | .str e _ => e ≠ ""
  | .lst .nil _ => false
  | .lst (.cons _ _) _ => true

mutual

/-- `NestedRE.make_flat` (also `__str__`): closure suffix, with
parentheses around multi-character expressions; `ϵ` absorbs the closure. -/
def NestedRE.make_flat : NestedRE → String
  | .str e c =>
      if c = "" ∨ e = "ϵ" then e
      else if e.length = 1 then e ++ c
      else "(" ++ e ++ ")" ++ c
  | .lst l c =>
      let f := NREList.flat l
      if c = "" ∨ f = "ϵ" then f
      else if f.length = 1 then f ++ c
      else "(" ++ f ++ ")" ++ c

/-- `''.join(str(e) for e in self.exp)` of the list case of `make_flat`. -/
def NREList.flat : NREList → String
  | .nil => ""
  | .cons x xs => NestedRE.make_flat x ++ NREList.flat xs

end

/-- `NestedRE.merge_by_intersection(p, C)`. -/
def NestedRE.merge_by_intersection (p : String) (C : List String) : NestedRE :=
  if "" ∈ C then
    if "?" ∈ C then .str (p ++ p) "?"
    else if "*" ∈ C then .str p "+"
    else if "+" ∈ C then .str (p ++ p) "+"
    else .str (p ++ p) ""
  else if "+" ∈ C then .str p "+"
  else if "*" ∈ C then .str p "*"
  else .str (p ++ "?" ++ p ++ "?") ""

/-- `NestedRE.join_intersection`. -/
def NestedRE.join_intersection (a b : NestedRE) : NestedRE :=
  let A := a.make_flat
  let B := b.make_flat
  if A = B ∧ A ≠ "ϵ" then NestedRE.merge_by_intersection A [a.closure, b.closure]
  else if A = "ϵ" ∧ B = "ϵ" then .str "ϵ" ""
  else if A = "ϵ" then b
  else if B = "ϵ" then a
  else .str (A ++ B) ""

/-- `NestedRE.merge_by_union(p, C)`: its first statement is
`assert len(A) == 2 and len(B) == 2` where no `A` or `B` is in scope, so
every call raises `NameError` before reaching the closure table below it. -/
def NestedRE.merge_by_union (_p : String) (_C : List String) :
    Except PyErr NestedRE :=
  .error .nameError

/-- `NestedRE.join_union`: in the identical-pattern branch the source
calls `self.merge_union(...)`, a method that does not exist
(`merge_by_union` is the defined name), so that branch raises
`AttributeError`. -/
def NestedRE.join_union (a b : NestedRE) : Except PyErr NestedRE :=
  let A := a.make_flat
  let B := b.make_flat
  if A = B ∧ A ≠ "ϵ" then .error .attributeError
  else if A = "ϵ" ∧ B = "ϵ" then .ok (.str "ϵ" "")
  else if A = "ϵ" then .ok (.str B "?")
  else if B = "ϵ" then .ok (.str A "?")
  else .ok (.str ("(" ++ A ++ "|" ++ B ++ ")") "")

/-! ## `re_parser.py` -/

/-- `self.A.root.index` (`AttributeError` when `root` is `None`). -/
def rootIdx (A : Automaton) : Except PyErr Nat :=
  match A.root with
  | some r => .ok r
  | none => .error .attributeError

/-- `any(e[r] for e in edges)`: scans rows, short-circuiting on the first
row with a non-empty cell at column `r` (checked access, as in Python). -/
def anyIncoming : Mat → Nat → Except PyErr Bool
  | [], _ => .ok false
  | row :: rest, r =>
      match row.get? r with
      | none => .error .indexError
      | some c => if c.isEmpty then anyIncoming rest r else .ok true

/-- `REParser.is_uniform`. -/
def REParser.is_uniform (A : Automaton) : Except PyErr Bool := do
  let r ← rootIdx A
  let inc ← anyIncoming A.edges r
  if inc then pure false
  else if A.accepting.length > 1 then pure false
  else do
    let f ← mget A.accepting 0
    let row ← mget A.edges f
    if row.any (fun c => !c.isEmpty) then pure false else pure true

/-- Set the `is_initial` flag of the node with index `idx`. -/
def setFlagInitial (A : Automaton) (idx : Nat) (b : Bool) : Automaton :=
  { A with nodes := A.nodes.map (fun n =>
      if n.index = idx then { n with is_initial := b } else n) }

/-- Set the `is_final` flag of the node with index `idx`. -/
def setFlagFinal (A : Automaton) (idx : Nat) (b : Bool) : Automaton :=
  { A with nodes := A.nodes.map (fun n =>
      if n.index = idx then { n with is_final := b } else n) }

/-- The first conversion branch of `REParser.make_uniform`: synthesize a
new initial node with an ϵ-edge to the old root, demote the old root's
flag, and reroot. -/
def REParser.muInitBody (A : Automaton) (r : Nat) : Except PyErr Automaton := do
  let (A, nr) ← A.add_node false false ""
  let A ← A.add_edge nr.index r "ϵ"
  let A := setFlagInitial A r false
  let A := setFlagInitial A nr.index true
  pure { A with root := some nr.index }

/-- The second conversion branch of `REParser.make_uniform`: synthesize a
new accepting node with ϵ-edges from every previous accepting node,
demote their flags, and reset the accepting list. -/
def REParser.muFinalBody (A : Automaton) : Except PyErr Automaton := do
  let (A, nf) ← A.add_node false false ""
  let A ← A.accepting.foldlM
    (fun A f => do
      let A ← A.add_edge f nf.index "ϵ"
      pure (setFlagFinal A f false))
    A
  let A := setFlagFinal A nf.index true
  pure { A with accepting := [nf.index] }

/-- `REParser.make_uniform`. -/
def REParser.make_uniform (A : Automaton) : Except PyErr Automaton := do
  let r ← rootIdx A
  let c1 ← if r ∈ A.accepting then pure true else anyIncoming A.edges r
  let A ← if c1 then REParser.muInitBody A r else pure A
  let c2 ←
    if A.accepting.length > 1 then pure true
    else do
      let f0 ← mget A.accepting 0
      let row ← mget A.edges f0
      pure (row.any (fun c => !c.isEmpty))
  if c2 then REParser.muFinalBody A else pure A

/-- `REParser.derive_pattern(s, t, k)`. -/
def REParser.derive_pattern (A : Automaton) (s t k : Node) :
    Except PyErr (Option String) := do
  let c_st ← mget2 A.edges s.index t.index
  let c_sk ← mget2 A.edges s.index k.index
  let c_kk ← mget2 A.edges k.index k.index
  let c_kt ← mget2 A.edges k.index t.index
  let s2t : NestedRE := .str (String.intercalate "|" c_st) ""
  let s2k : NestedRE := .str (String.intercalate "|" c_sk) ""
  let k2k : NestedRE := .str (String.intercalate "|" c_kk) "*"
  let k2t : NestedRE := .str (String.intercalate "|" c_kt) ""
  let L : Option NestedRE := if s2t.toBool then some s2t else none
  let R : Option NestedRE ←
    if s2k.toBool ∧ k2t.toBool then do
      let R := s2k
      let R := if k2k.toBool ∧ k2k.make_flat ≠ "ϵ"
        then R.join_intersection k2k else R
      pure (some (R.join_intersection k2t))
    else pure none
  let P : Option NestedRE ←
    match L, R with
    | some l, some r => do pure (some (← l.join_union r))
    | some l, none => pure (some l)
    | none, some r => pure (some r)
    | none, none => pure none
  match P with
  | some p => if p.toBool then pure (some p.make_flat) else pure none
  | none => pure none

/-- The per-eliminated-node round of `REParser.parse`: rebuild a fresh
`esize × esize` matrix of derived labels over all ordered pairs of current
nodes distinct from `k`, then tombstone `k` and install the new matrix. -/
def REParser.eliminate (A : Automaton) (k : Node) : Except PyErr Automaton := do
  let empty : Mat := List.replicate A.esize (List.replicate A.esize ([] : List String))
  let newE ← A.nodes.foldlM
    (fun E n1 =>
      A.nodes.foldlM
        (fun E n2 => do
          if ¬(n1.index = k.index ∨ n2.index = k.index) then
            match ← REParser.derive_pattern A n1 n2 k with
            | some lbl => do
                let cell ← mget2 E n1.index n2.index
                pure (setCell E n1.index n2.index (cell ++ [lbl]))
            | none => pure E
          else pure E)
        E)
    empty
  let A ← A.delete_node k
  pure { A with edges := newE }

/-- `REParser.parse`. -/
def REParser.parse (A : Automaton) : Except PyErr (List String) := do
  let u ← REParser.is_uniform A
  let A ← if ¬u then REParser.make_uniform A else pure A
  let internal := A.nodes.filter (fun n => ¬(n.is_initial ∨ n.is_final))
  let A ← internal.foldlM REParser.eliminate A
  let r ← rootIdx A
  let f0 ← mget A.accepting 0
  mget2 A.edges r f0

/-! ## The pipeline (`a0lree.py` / `main.py`, minus I/O) -/

/-- Learner then extractor, as `a0lree.py` runs them on an example list. -/
def pipeline (examples : List String) : Except PyErr (List String) := do
  let L ← A0Learner.init examples
  let L ← L.learn
  REParser.parse L.A

/-! ## Concrete runs used by the theorems -/

/-- `A0Learner(examples)` followed by `learn()`. -/
def learnRun (examples : List String) : Except PyErr A0Learner := do
  let L ← A0Learner.init examples
  L.learn

/-- The learner stopped after Stage B (prefix tree + merged final states),
i.e. the state on which Stage C starts. -/
def stageBRun (examples : List String) : Except PyErr A0Learner := do
  let L ← A0Learner.init examples
  let L ← L.construct_prefix_tree
  L.merge_final_states

/-- Five fresh nodes, node 1 deleted, an `x`-edge `0 → 3`, then
`merge_nodes([node0])`: the scenario refuting claim C3. -/
def mergeRedirectRun : Except PyErr Automaton := do
  let A := Automaton.fresh
  let (A, n0) ← A.add_node false false ""
  let (A, n1) ← A.add_node false false ""
  let (A, _) ← A.add_node false false ""
  let (A, n3) ← A.add_node false false ""
  let (A, _) ← A.add_node false false ""
  let A ← A.delete_node n1
  let A ← A.add_edge n0.index n3.index "x"
  let (A, _) ← A.merge_nodes [n0] ""
  pure A

/-- Three accepting nodes, then `merge_nodes` on the first two only: the
scenario refuting claim C4. -/
def partialFinalMergeRun : Except PyErr Automaton := do
  let A := Automaton.fresh
  let (A, n0) ← A.add_node false true ""
  let (A, n1) ← A.add_node false true ""
  let (A, _) ← A.add_node false true ""
  let (A, _) ← A.merge_nodes [n0, n1] ""
  pure A

/-- `n` consecutive `add_node()` calls on a fresh automaton. -/
def iterAddNode : Nat → Automaton → Except PyErr Automaton
  | 0, A => .ok A
  | k + 1, A => do
      let (A, _) ← A.add_node false false ""
      iterAddNode k A

end A0

deriving instance DecidableEq for Except

namespace A0

/-! ## Lemmas about the embedded primitives (used by the `make_uniform`
idempotence proof) -/

@[simp] theorem exbind_ok {α β : Type} (a : α) (f : α → Except PyErr β) :
    (Except.ok a >>= f) = f a := rfl

@[simp] theorem expure_ok {α : Type} (a : α) :
    (pure a : Except PyErr α) = Except.ok a := rfl

@[simp] theorem exbind_error {α β : Type} (e : PyErr) (f : α → Except PyErr β) :
    ((Except.error e : Except PyErr α) >>= f) = .error e := rfl

theorem mget_eq_ok {α : Type} {l : List α} {i : Nat} {x : α}
    (h : l[i]? = some x) : mget l i = .ok x := by
  simp [mget, List.get?_eq_getElem?, h]

theorem mget_of_lt {α : Type} {l : List α} {i : Nat} (h : i < l.length) :
    ∃ x, l[i]? = some x ∧ mget l i = .ok x :=
  ⟨l[i], List.getElem?_eq_some.mpr ⟨h, rfl⟩,
    mget_eq_ok (List.getElem?_eq_some.mpr ⟨h, rfl⟩)⟩

theorem rootIdx_of_some {A : Automaton} {r : Nat} (h : A.root = some r) :
    rootIdx A = .ok r := by
  simp [rootIdx, h]

theorem setCell_length (E : Mat) (i j : Nat) (v : List String) :
    (setCell E i j v).length = E.length := by
  simp [setCell]

theorem setCell_get?_ne (E : Mat) {i i' : Nat} (j : Nat) (v : List String)
    (h : i' ≠ i) : (setCell E i j v)[i']? = E[i']? :=
  List.getElem?_set_ne (fun he => h he.symm)

theorem setCell_get?_eq {E : Mat} {i : Nat} {row : List (List String)}
    (j : Nat) (v : List String) (h : E[i]? = some row) :
    (setCell E i j v)[i]? = some (row.set j v) := by
  have hi : i < E.length := (List.getElem?_eq_some.mp h).1
  rw [setCell, List.get?_eq_getElem?, h]
  exact List.getElem?_set_eq_of_lt _ (by simpa using hi)

theorem mem_setCell {E : Mat} {i j : Nat} {v : List String}
    {row' : List (List String)} (h : row' ∈ setCell E i j v) :
    row' ∈ E ∨ row' = ((E.get? i).getD []).set j v :=
  List.mem_or_eq_of_mem_set h

@[simp] theorem setFlagInitial_edges (A : Automaton) (i : Nat) (b : Bool) :
    (setFlagInitial A i b).edges = A.edges := rfl

@[simp] theorem setFlagInitial_root (A : Automaton) (i : Nat) (b : Bool) :
    (setFlagInitial A i b).root = A.root := rfl

@[simp] theorem setFlagInitial_accepting (A : Automaton) (i : Nat) (b : Bool) :
    (setFlagInitial A i b).accepting = A.accepting := rfl

@[simp] theorem setFlagInitial_esize (A : Automaton) (i : Nat) (b : Bool) :
    (setFlagInitial A i b).esize = A.esize := rfl

@[simp] theorem setFlagInitial_node_index (A : Automaton) (i : Nat) (b : Bool) :
    (setFlagInitial A i b).node_index = A.node_index := rfl

@[simp] theorem setFlagInitial_nodes_length (A : Automaton) (i : Nat) (b : Bool) :
    (setFlagInitial A i b).nodes.length = A.nodes.length := by
  simp [setFlagInitial]

@[simp] theorem setFlagFinal_edges (A : Automaton) (i : Nat) (b : Bool) :
    (setFlagFinal A i b).edges = A.edges := rfl

@[simp] theorem setFlagFinal_root (A : Automaton) (i : Nat) (b : Bool) :
    (setFlagFinal A i b).root = A.root := rfl

@[simp] theorem setFlagFinal_accepting (A : Automaton) (i : Nat) (b : Bool) :
    (setFlagFinal A i b).accepting = A.accepting := rfl

@[simp] theorem setFlagFinal_esize (A : Automaton) (i : Nat) (b : Bool) :
    (setFlagFinal A i b).esize = A.esize := rfl

@[simp] theorem setFlagFinal_node_index (A : Automaton) (i : Nat) (b : Bool) :
    (setFlagFinal A i b).node_index = A.node_index := rfl

@[simp] theorem setFlagFinal_nodes_length (A : Automaton) (i : Nat) (b : Bool) :
    (setFlagFinal A i b).nodes.length = A.nodes.length := by
  simp [setFlagFinal]

/-- `anyIncoming` never errors when column `r` is in range for every row. -/
theorem anyIncoming_total {E : Mat} {r : Nat}
    (h : ∀ row ∈ E, r < row.length) : ∃ b, anyIncoming E r = .ok b := by
  induction E with
  | nil => exact ⟨false, rfl⟩
  | cons row rest ih =>
      obtain ⟨c, hc, -⟩ := mget_of_lt (h row (by simp))
      rcases ih (fun row hr => h row (by simp [hr])) with ⟨b, hb⟩
      by_cases he : c.isEmpty
      · exact ⟨b, by simp [anyIncoming, List.get?_eq_getElem?, hc, he, hb]⟩
      · exact ⟨true, by simp [anyIncoming, List.get?_eq_getElem?, hc, he]⟩

/-- `anyIncoming` reports `false` exactly when every row has an empty cell
in column `r` (in particular column `r` is everywhere in range). -/
theorem anyIncoming_false_iff {E : Mat} {r : Nat} :
    anyIncoming E r = .ok false ↔ ∀ row ∈ E, row[r]? = some [] := by
  induction E with
  | nil => simp [anyIncoming]
  | cons row rest ih =>
      constructor
      · intro h row' hm
        cases hc : row[r]? with
        | none => simp [anyIncoming, List.get?_eq_getElem?, hc] at h
        | some c =>
            by_cases he : c.isEmpty
            · have hrest : anyIncoming rest r = .ok false := by
                simpa [anyIncoming, List.get?_eq_getElem?, hc, he] using h
              rcases List.mem_cons.mp hm with h1 | h2
              · subst h1
                rw [hc, List.isEmpty_iff.mp he]
              · exact ih.mp hrest row' h2
            · simp [anyIncoming, List.get?_eq_getElem?, hc, he] at h
      · intro h
        have hr : row[r]? = some [] := h row (by simp)
        have hrest : anyIncoming rest r = .ok false :=
          ih.mpr (fun row' hm => h row' (by simp [hm]))
        simp [anyIncoming, List.get?_eq_getElem?, hr, hrest, List.isEmpty_iff]

/-- A cell in the all-empty zone beyond `node_index` reads as `some []`. -/
theorem get?_empty_of_drop_all {row : List (List String)} {k q : Nat}
    (hq : q < row.length) (hk : k ≤ q)
    (hdrop : ∀ c ∈ row.drop k, c = []) : row[q]? = some [] := by
  obtain ⟨c, hc, -⟩ := mget_of_lt hq
  have hqd : (row.drop k)[q - k]? = some c := by
    rw [List.getElem?_drop]
    rwa [Nat.add_sub_cancel' hk]
  have hcm : c ∈ row.drop k := List.getElem?_mem hqd
  rw [hc, hdrop c hcm]

/-- `make_uniform` is the identity when the two conversion conditions are
false: the root is not accepting and has no incoming edges, and there is
exactly one accepting node, whose row is empty. -/
theorem make_uniform_noop {A : Automaton} {r f : Nat}
    {row : List (List String)}
    (hroot : A.root = some r)
    (hra : r ∉ A.accepting)
    (hcol : ∀ row' ∈ A.edges, row'[r]? = some [])
    (hacc : A.accepting = [f])
    (hfrow : A.edges[f]? = some row)
    (hempty : ∀ c ∈ row, c = []) :
    REParser.make_uniform A = .ok A := by
  have hany : anyIncoming A.edges r = .ok false := anyIncoming_false_iff.mpr hcol
  have hmacc : mget A.accepting 0 = .ok f := by rw [hacc]; rfl
  have hmrow : mget A.edges f = .ok row := mget_eq_ok hfrow
  have hanyrow : row.any (fun c => !c.isEmpty) = false := by
    simp only [List.any_eq_false]
    intro c hc
    simp [hempty c hc, List.isEmpty_iff]
  unfold REParser.make_uniform
  rw [rootIdx_of_some hroot, exbind_ok, if_neg hra, hany, exbind_ok]
  simp only [Bool.false_eq_true, if_false, pure_bind]
  rw [if_neg (by simp [hacc] : ¬A.accepting.length > 1), hmacc, exbind_ok,
    hmrow, exbind_ok, hanyrow]
  simp only [pure_bind, Bool.false_eq_true, if_false]
  rfl

/-- `add_node(False, False)` when no growth is triggered and a root
already exists: a pure record extension. -/
theorem add_node_plain {A : Automaton} {r : Nat}
    (h : ¬A.nodes.length > A.esize) (hroot : A.root = some r) :
    A.add_node false false "" =
      .ok ({ A with node_index := A.node_index + 1,
                    nodes := A.nodes ++ [⟨A.node_index, "", false, false⟩] },
        ⟨A.node_index, "", false, false⟩) := by
  unfold Automaton.add_node
  rw [if_neg h]
  simp [hroot]

/-- `add_edge` at a readable cell appends the label there. -/
theorem add_edge_ok {A : Automaton} {i j : Nat} {row : List (List String)}
    {c : List String} (hi : A.edges[i]? = some row) (hj : row[j]? = some c)
    (lbl : String) :
    A.add_edge i j lbl = .ok { A with edges := setCell A.edges i j (c ++ [lbl]) } := by
  unfold Automaton.add_edge mget2
  rw [mget_eq_ok hi, exbind_ok, mget_eq_ok hj, exbind_ok]
  rfl

/-- Shape of the first conversion branch: it adds node `node_index`, hangs
an ϵ-edge from it to the old root `r`, and reroots; `accepting` and
`esize` are untouched, `node_index` and the node count grow by one. -/
theorem muInitBody_ok {A : Automaton} {r : Nat}
    (hroot : A.root = some r)
    (hnodes : ¬A.nodes.length > A.esize)
    (hlen : A.edges.length = A.esize)
    (hrows : ∀ row ∈ A.edges, row.length = A.esize)
    (hn : A.node_index < A.esize) (hr : r < A.esize) :
    ∃ A1 rowN cN, A.edges[A.node_index]? = some rowN ∧ rowN[r]? = some cN ∧
      REParser.muInitBody A r = .ok A1 ∧
      A1.root = some A.node_index ∧
      A1.accepting = A.accepting ∧
      A1.node_index = A.node_index + 1 ∧
      A1.esize = A.esize ∧
      A1.nodes.length = A.nodes.length + 1 ∧
      A1.edges = setCell A.edges A.node_index r (cN ++ ["ϵ"]) := by
  obtain ⟨rowN, hrowN, -⟩ := mget_of_lt (l := A.edges) (i := A.node_index) (by omega)
  obtain ⟨cN, hcN, -⟩ := mget_of_lt (l := rowN) (i := r)
    (by rw [hrows rowN (List.getElem?_mem hrowN)]; omega)
  refine ⟨{ setFlagInitial (setFlagInitial
      { A with node_index := A.node_index + 1,
               nodes := A.nodes ++ [⟨A.node_index, "", false, false⟩],
               edges := setCell A.edges A.node_index r (cN ++ ["ϵ"]) } r false)
      A.node_index true with root := some A.node_index },
    rowN, cN, hrowN, hcN, ?_, rfl, by simp, by simp, by simp, ?_, by simp⟩
  · unfold REParser.muInitBody Automaton.add_node Automaton.add_edge mget2
    rw [if_neg hnodes]
    simp [hroot, mget_eq_ok hrowN, mget_eq_ok hcN]
  · simp [setFlagInitial]

/-- The ϵ-edge fold of the second conversion branch: total under the
bounds, only touches column `nf` of the rows listed in `fs`, and leaves
every non-edge field except the node flags unchanged. -/
theorem epsFold_ok (nf : Nat) :
    ∀ (fs : List Nat) (A : Automaton),
    A.edges.length = A.esize →
    (∀ row ∈ A.edges, row.length = A.esize) →
    (∀ f ∈ fs, f < A.esize) →
    nf < A.esize →
    ∃ A', (fs.foldlM (fun A f => do
        let A ← A.add_edge f nf "ϵ"
        pure (setFlagFinal A f false)) A) = .ok A' ∧
      A'.esize = A.esize ∧
      A'.edges.length = A.edges.length ∧
      (∀ row ∈ A'.edges, row.length = A.esize) ∧
      A'.root = A.root ∧
      A'.accepting = A.accepting ∧
      A'.node_index = A.node_index ∧
      (∀ (i q : Nat), q ≠ nf →
        (A'.edges[i]?.map (fun (row : List (List String)) => row[q]?)) =
          (A.edges[i]?.map (fun (row : List (List String)) => row[q]?))) ∧
      (∀ i : Nat, i ∉ fs → A'.edges[i]? = A.edges[i]?) := by
  intro fs
  induction fs with
  | nil =>
      intro A _ hrows _ _
      exact ⟨A, rfl, rfl, rfl, hrows, rfl, rfl, rfl,
        fun _ _ _ => rfl, fun _ _ => rfl⟩
  | cons f fs ih =>
      intro A hlen hrows hfs hnf
      obtain ⟨rowf, hrowf, -⟩ := mget_of_lt (l := A.edges) (i := f)
        (by rw [hlen]; exact hfs f (by simp))
      obtain ⟨cf, hcf, -⟩ := mget_of_lt (l := rowf) (i := nf)
        (by rw [hrows rowf (List.getElem?_mem hrowf)]; omega)
      set A1 := setFlagFinal { A with edges := setCell A.edges f nf (cf ++ ["ϵ"]) } f false with hA1
      have hstep : (List.foldlM (fun A f => do
          let A ← A.add_edge f nf "ϵ"
          pure (setFlagFinal A f false)) A (f :: fs)) =
          (List.foldlM (fun A f => do
            let A ← A.add_edge f nf "ϵ"
            pure (setFlagFinal A f false)) A1 fs) := by
        rw [List.foldlM_cons]
        simp only [add_edge_ok hrowf hcf "ϵ", exbind_ok, expure_ok, hA1]
      have hlen1 : A1.edges.length = A1.esize := by
        simp [hA1, setCell_length, hlen]
      have hrows1 : ∀ row ∈ A1.edges, row.length = A1.esize := by
        intro row hm
        simp only [hA1, setFlagFinal_edges, setFlagFinal_esize] at hm ⊢
        rcases mem_setCell hm with h | h
        · exact hrows row h
        · rw [h, List.length_set, List.get?_eq_getElem?, hrowf]
          exact hrows rowf (List.getElem?_mem hrowf)
      have hfs1 : ∀ g ∈ fs, g < A1.esize := fun g hg => hfs g (by simp [hg])
      obtain ⟨A', hfold, he, hl, hrw, hro, hac, hni, hcolpres, hrowpres⟩ :=
        ih A1 hlen1 hrows1 hfs1 (by simpa [hA1] using hnf)
      refine ⟨A', by rw [hstep, hfold], ?_, ?_, ?_, ?_, ?_, ?_, ?_, ?_⟩
      · simpa [hA1] using he
      · rw [hl]; simp [hA1, setCell_length]
      · simpa [hA1] using hrw
      · simpa [hA1] using hro
      · simpa [hA1] using hac
      · simpa [hA1] using hni
      · intro i q hq
        rw [hcolpres i q hq]
        simp only [hA1, setFlagFinal_edges]
        by_cases hif : i = f
        · subst hif
          rw [setCell_get?_eq _ _ hrowf, hrowf]
          simp [List.getElem?_set_ne (fun h => hq h.symm)]
        · rw [setCell_get?_ne _ _ _ hif]
      · intro i hi
        rw [hrowpres i (fun h => hi (by simp [h]))]
        simp only [hA1, setFlagFinal_edges]
        exact setCell_get?_ne _ _ _ (fun h => hi (by simp [h]))

/-- Shape of the second conversion branch: it adds node `node_index`,
hangs ϵ-edges from every accepting node to it (touching only column
`node_index` of those rows), and resets the accepting list to it. -/
theorem muFinalBody_ok {A : Automaton} {r1 : Nat}
    (hroot : A.root = some r1)
    (hnodes : ¬A.nodes.length > A.esize)
    (hlen : A.edges.length = A.esize)
    (hrows : ∀ row ∈ A.edges, row.length = A.esize)
    (haccb : ∀ f ∈ A.accepting, f < A.esize)
    (hn : A.node_index < A.esize)
    (hnacc : A.node_index ∉ A.accepting) :
    ∃ A4, REParser.muFinalBody A = .ok A4 ∧
      A4.root = A.root ∧
      A4.accepting = [A.node_index] ∧
      A4.esize = A.esize ∧
      A4.node_index = A.node_index + 1 ∧
      A4.edges.length = A.edges.length ∧
      (∀ (i q : Nat), q ≠ A.node_index →
        (A4.edges[i]?.map (fun (row : List (List String)) => row[q]?)) =
          (A.edges[i]?.map (fun (row : List (List String)) => row[q]?))) ∧
      A4.edges[A.node_index]? = A.edges[A.node_index]? := by
  obtain ⟨A3, hfold, he3, hl3, hrw3, hro3, hac3, hni3, hcol3, hrow3⟩ :=
    epsFold_ok A.node_index A.accepting
      { A with node_index := A.node_index + 1,
               nodes := A.nodes ++ [⟨A.node_index, "", false, false⟩] }
      hlen hrows haccb hn
  refine ⟨{ setFlagFinal A3 A.node_index true with accepting := [A.node_index] },
    ?_, ?_, rfl, ?_, ?_, ?_, ?_, ?_⟩
  · unfold REParser.muFinalBody
    rw [add_node_plain hnodes hroot]
    simp only [exbind_ok]
    rw [hfold]
    simp only [exbind_ok, expure_ok]
  · simp only [setFlagFinal_root]
    rw [hro3]
  · simp only [setFlagFinal_esize]
    rw [he3]
  · simp only [setFlagFinal_node_index]
    rw [hni3]
  · simp only [setFlagFinal_edges]
    rw [hl3]
  · intro i q hq
    simp only [setFlagFinal_edges]
    exact hcol3 i q hq
  · simp only [setFlagFinal_edges]
    exact hrow3 A.node_index hnacc

/-- Any live state of `make_uniform`'s data on which both conversion
conditions evaluate false — the root is a fresh-enough index, not
accepting, with an empty incoming column, and the row of the would-be new
final node is empty — converts to an `ok` result that `make_uniform`
leaves fixed. -/
theorem make_uniform_settles_direct (A1 : Automaton) (r1 : Nat)
    (hroot1 : A1.root = some r1)
    (hr1 : r1 < A1.node_index)
    (hacc1 : A1.accepting ≠ [])
    (haccb1 : ∀ a ∈ A1.accepting, a < A1.node_index)
    (hlen1 : A1.edges.length = A1.esize)
    (hrows1 : ∀ row ∈ A1.edges, row.length = A1.esize)
    (hcap1 : A1.node_index + 1 ≤ A1.esize)
    (hnodes1 : ¬A1.nodes.length > A1.esize)
    (hr1acc : r1 ∉ A1.accepting)
    (hcol1 : ∀ row ∈ A1.edges, row[r1]? = some [])
    (hnfrow : ∀ row, A1.edges[A1.node_index]? = some row → ∀ c ∈ row, c = []) :
    ∃ A', REParser.make_uniform A1 = .ok A' ∧ REParser.make_uniform A' = .ok A' := by
  have hnfacc : A1.node_index ∉ A1.accepting :=
    fun hmem => absurd (haccb1 _ hmem) (by omega)
  have hany : anyIncoming A1.edges r1 = .ok false := anyIncoming_false_iff.mpr hcol1
  -- the would-be new-final branch always lands on a settled state
  have hfinal : ∀ hcase : Bool,
      ∃ A', REParser.muFinalBody A1 = .ok A' ∧ REParser.make_uniform A' = .ok A' := by
    intro _
    obtain ⟨A4, hbody, hro4, hac4, he4, hni4, hl4, hcol4, hrow4⟩ :=
      muFinalBody_ok hroot1 hnodes1 hlen1 hrows1
        (fun f hf => by have := haccb1 f hf; omega) (by omega) hnfacc
    refine ⟨A4, hbody, ?_⟩
    have hr1ne : r1 ≠ A1.node_index := by omega
    obtain ⟨rowNf, hrowNf, -⟩ := mget_of_lt (l := A1.edges) (i := A1.node_index)
      (by omega)
    have hcolA4 : ∀ row' ∈ A4.edges, row'[r1]? = some [] := by
      intro row' hm
      obtain ⟨i, hi⟩ := List.mem_iff_getElem?.mp hm
      have hilt : i < A1.edges.length := by
        have h1 := (List.getElem?_eq_some.mp hi).1
        omega
      obtain ⟨rowi, hrowi, -⟩ := mget_of_lt hilt
      have hmap := hcol4 i r1 hr1ne
      rw [hi, hrowi, Option.map_some', Option.map_some'] at hmap
      rw [Option.some.injEq] at hmap
      rw [hmap]
      exact hcol1 rowi (List.getElem?_mem hrowi)
    exact make_uniform_noop (by rw [hro4]; exact hroot1)
      (by rw [hac4]; simpa using hr1ne) hcolA4 hac4
      (by rw [hrow4]; exact hrowNf) (hnfrow rowNf hrowNf)
  -- now trace `make_uniform A1` itself
  unfold REParser.make_uniform
  rw [rootIdx_of_some hroot1]
  simp only [exbind_ok]
  rw [if_neg hr1acc, hany]
  simp only [exbind_ok, expure_ok, Bool.false_eq_true, if_false]
  by_cases hl : A1.accepting.length > 1
  · rw [if_pos hl]
    simp only [eq_self_iff_true, if_true]
    exact hfinal true
  · rw [if_neg hl]
    obtain ⟨f0, hacc0⟩ : ∃ f0, A1.accepting = [f0] := by
      match hl2 : A1.accepting, hacc1, hl with
      | [x], _, _ => exact ⟨x, rfl⟩
      | [], hne, _ => exact absurd rfl hne
      | x :: y :: t, _, h => simp at h
    have hmaccf : mget A1.accepting 0 = .ok f0 := by rw [hacc0]; rfl
    obtain ⟨rowf0, hrowf0, hmrowf0⟩ := mget_of_lt (l := A1.edges) (i := f0)
      (by have := haccb1 f0 (by simp [hacc0]); omega)
    rw [hmaccf]
    simp only [exbind_ok]
    rw [hmrowf0]
    simp only [exbind_ok]
    cases hb2 : rowf0.any (fun c => !c.isEmpty) with
    | true =>
        simp only [eq_self_iff_true, if_true]
        exact hfinal true
    | false =>
        simp only [Bool.false_eq_true, if_false]
        refine ⟨A1, rfl, ?_⟩
        have hempty : ∀ c ∈ rowf0, c = [] := by
          intro c hc
          have := List.any_eq_false.mp hb2 c hc
          simpa [List.isEmpty_iff] using this
        exact make_uniform_noop hroot1 hr1acc hcol1 hacc0 hrowf0 hempty

/-- When the first conversion condition fires, `make_uniform A` computes
exactly what `make_uniform` computes on the converted state `A1`, because
the first condition is false on `A1`. -/
theorem make_uniform_eq_of_init {A A1 : Automaton} {r : Nat}
    (hroot : A.root = some r)
    (hc1 : r ∈ A.accepting ∨ anyIncoming A.edges r = .ok true)
    (hinit : REParser.muInitBody A r = .ok A1)
    (hroot1 : A1.root = some A.node_index)
    (hr1acc : A.node_index ∉ A1.accepting)
    (hany1 : anyIncoming A1.edges A.node_index = .ok false) :
    REParser.make_uniform A = REParser.make_uniform A1 := by
  unfold REParser.make_uniform
  rw [rootIdx_of_some hroot, rootIdx_of_some hroot1]
  simp only [exbind_ok]
  rw [if_neg hr1acc, hany1]
  simp only [exbind_ok, Bool.false_eq_true, if_false, expure_ok]
  by_cases hm : r ∈ A.accepting
  · rw [if_pos hm]
    simp only [expure_ok, exbind_ok, eq_self_iff_true, if_true]
    rw [hinit]
    simp only [exbind_ok]
  · rcases hc1 with h | h
    · exact absurd h hm
    · rw [if_neg hm, h]
      simp only [exbind_ok, eq_self_iff_true, if_true]
      rw [hinit]
      simp only [exbind_ok]

/-- On a well-formed automaton with at least one accepting node,
`make_uniform` succeeds and its result is a fixed point of
`make_uniform`. -/
theorem make_uniform_settles (A : Automaton) (r : Nat)
    (hroot : A.root = some r) (hr : r < A.node_index)
    (hacc : A.accepting ≠ [])
    (haccb : ∀ a ∈ A.accepting, a < A.node_index)
    (hlen : A.edges.length = A.esize)
    (hrows : ∀ row ∈ A.edges, row.length = A.esize)
    (hcap : A.node_index + 2 ≤ A.esize)
    (hnodes : A.nodes.length + 1 ≤ A.esize)
    (hcols : ∀ row ∈ A.edges, ∀ c ∈ row.drop A.node_index, c = [])
    (hrowse : ∀ row ∈ A.edges.drop A.node_index, ∀ c ∈ row, c = []) :
    ∃ A', REParser.make_uniform A = .ok A' ∧ REParser.make_uniform A' = .ok A' := by
  have hnfrowA : ∀ row, A.edges[A.node_index]? = some row → ∀ c ∈ row, c = [] := by
    intro row h
    refine hrowse row ?_
    refine List.getElem?_mem (n := 0) ?_
    rw [List.getElem?_drop]
    simpa using h
  by_cases hc1 : r ∈ A.accepting ∨ anyIncoming A.edges r = .ok true
  · -- first condition fires: convert, then the converted state settles
    obtain ⟨A1, rowN, cN, hrowN, hcN, hinit, hroot1, hacc1, hni1, he1, hnl1, hedges1⟩ :=
      muInitBody_ok hroot (by omega) hlen hrows (by omega) (by omega)
    have hcol1 : ∀ row ∈ A1.edges, row[A.node_index]? = some [] := by
      intro row hm
      rw [hedges1] at hm
      rcases mem_setCell hm with h | h
      · exact get?_empty_of_drop_all
          (by rw [hrows row h]; omega) (le_refl _) (hcols row h)
      · rw [h, List.get?_eq_getElem?, hrowN, Option.getD_some,
          List.getElem?_set_ne (by omega)]
        exact get?_empty_of_drop_all
          (by rw [hrows rowN (List.getElem?_mem hrowN)]; omega) (le_refl _)
          (hcols rowN (List.getElem?_mem hrowN))
    have hr1acc : A.node_index ∉ A1.accepting := by
      rw [hacc1]
      intro hm
      exact absurd (haccb _ hm) (by omega)
    obtain ⟨A', h1, h2⟩ := make_uniform_settles_direct A1 A.node_index hroot1
      (by omega)
      (by rw [hacc1]; exact hacc)
      (by rw [hacc1, hni1]; intro a ha; have := haccb a ha; omega)
      (by rw [hedges1, setCell_length, he1, hlen])
      (by
        intro row hm
        rw [hedges1] at hm
        rw [he1]
        rcases mem_setCell hm with h | h
        · exact hrows row h
        · rw [h, List.length_set, List.get?_eq_getElem?, hrowN, Option.getD_some]
          exact hrows rowN (List.getElem?_mem hrowN))
      (by rw [hni1, he1]; omega)
      (by rw [hnl1, he1]; omega)
      hr1acc
      hcol1
      (by
        intro row h
        refine hrowse row ?_
        rw [hni1, hedges1, setCell_get?_ne _ _ _ (by omega)] at h
        refine List.getElem?_mem (n := 1) ?_
        rw [List.getElem?_drop]
        simpa using h)
    refine ⟨A', ?_, h2⟩
    rw [make_uniform_eq_of_init hroot hc1 hinit hroot1 hr1acc
      (anyIncoming_false_iff.mpr hcol1)]
    exact h1
  · -- first condition is false: the state settles directly
    have hmem : r ∉ A.accepting := fun h => hc1 (Or.inl h)
    obtain ⟨b, hb⟩ := anyIncoming_total (E := A.edges) (r := r)
      (fun row hm => by rw [hrows row hm]; omega)
    have hbf : b = false := by
      cases b
      · rfl
      · exact absurd hb (fun h => hc1 (Or.inr h))
    rw [hbf] at hb
    exact make_uniform_settles_direct A r hroot hr hacc haccb hlen hrows
      (by omega) (by omega) hmem (anyIncoming_false_iff.mp hb) hnfrowA

/-! ## Claims -/

/-- **C1.** The claim states that after the Stage C fixpoint
(`merge_nd_edges`) every live node has at most one outgoing edge per
alphabet symbol.  The code refutes it on the example set `{"a", "ab"}`:
the common-prefix scan of `construct_prefix_tree` stops its index one
short when the compared prefix fully matches (the Python `for` leaves
`i = min - 1`), so the tree gets two `a`-edges out of the root (`0 → 1`
and `0 → 2`), and both passes of `merge_nd_edges` examine
`edges[other][n]` — incoming edges — so outgoing nondeterminism is never
merged.  The learner completes with live node 0 carrying `a`-edges to the
two distinct live nodes 2 and 4. -/
theorem c1_learner_output_not_deterministic :
    (learnRun ["a", "ab"]).map (fun L =>
      (L.A.nodes, L.A.accepting, L.A.node_index,
        mget2 L.A.edges 0 2, mget2 L.A.edges 0 4)) =
    .ok ([⟨0, "", true, false⟩, ⟨2, "", false, false⟩, ⟨4, "", false, true⟩],
      [4], 5, .ok ["a"], .ok ["a"]) := by decide

/-- **C2.** The claim states that the Stage C outgoing pass merges, for a
node `n` and symbol `c`, the set of *targets* of `c`-labelled edges out of
`n`.  The code's "outgoing" pass tests `char in self.A.edges[c.index][n.index]`,
collecting the *sources* of `c`-labelled edges into `n`.  On the Stage B
state of `{"a", "ab"}`, node 0 has `a`-edges to the distinct live targets
2 and 4, yet the collection loop for node 0 and `'a'` returns nothing and
a full outgoing scan reports no nondeterminism and allocates no node
(`node_index` stays 5): the targets are never merged. -/
theorem c2_outgoing_pass_reads_incoming_edges :
    (stageBRun ["a", "ab"]).map (fun L =>
      (L.A.nodes, mget2 L.A.edges 0 2, mget2 L.A.edges 0 4,
        (ndCollect L.A ⟨0, "", true, false⟩ 'a').map (List.map Node.index),
        (ndScan L.sigma L.A).map (fun p => (p.2, p.1.node_index)))) =
    .ok ([⟨0, "", true, false⟩, ⟨2, "", false, false⟩, ⟨4, "", false, true⟩],
      .ok ["a"], .ok ["a"], .ok [], .ok (false, 5)) := by decide

/-- **C3.** The claim states that an edge from a merged node to a live
node `n2` outside the merged set is reattached as `new → n2`.  The code
looks the counterpart up with `self.nodes[j]` — a *position* in the
live-node list, not the node with matrix index `j` — so once any index
has been deleted the edge is reattached to the wrong node.  With nodes
0–4, node 1 deleted and an `x`-edge `0 → 3`, merging `{0}` produces the
edge `5 → 4` (position 3 of `[0, 2, 3, 4, 5]` is node 4) instead of the
claimed `5 → 3`. -/
theorem c3_merge_redirects_to_wrong_node :
    mergeRedirectRun.map (fun A =>
      (A.nodes.map Node.index, mget2 A.edges 5 3, mget2 A.edges 5 4)) =
    .ok ([2, 3, 4, 5], .ok [], .ok ["x"]) := by decide

/-- **C4.** The claim states that merging a proper subset of the final
nodes leaves the remaining pre-existing final nodes accepting.  The code
ends `merge_nodes` with `self.accepting_nodes = [new_node]` whenever the
new node is final, unconditionally.  Merging `{0, 1}` out of the three
final nodes `{0, 1, 2}` leaves node 2 live with `is_final = True` but the
accepting list reset to `[3]` — node 2 is no longer accepting. -/
theorem c4_partial_final_merge_drops_survivor :
    partialFinalMergeRun.map (fun A => (A.accepting, A.nodes)) =
    .ok ([3], [⟨2, "", false, true⟩, ⟨3, "", false, true⟩]) := by decide

/-- **C5 (counterexample).** The claim states the pipeline on `{""}`
yields the extracted expression `ϵ`.  The code's `parse` simply returns
the final edge's label list, with no ϵ fallback: on `{""}` the learner
leaves a single initial-and-accepting node with no edges, `parse` returns
the empty list, and the consumer's `'|'.join` renders it as the empty
string, not `ϵ`. -/
theorem c5_empty_string_pipeline_not_epsilon :
    (pipeline [""]).map (String.intercalate "|") = .ok "" ∧
      ("" : String) ≠ "ϵ" := by decide

/-- **C5 (amended).** On the example set containing exactly the empty
string, the pipeline returns the *empty* label list (no edge remains from
the initial to the final node, and no `ϵ` is substituted). -/
theorem c5_amended_empty_string_pipeline_empty_list :
    pipeline [""] = .ok [] := by decide

/-- **C6.** The claim states that alternation-merge of two values with
identical non-ϵ flattened patterns returns the shared pattern with the
table's closure.  The identical-pattern branch of `join_union` calls
`self.merge_union(...)`, a method that does not exist (`AttributeError`),
and the intended `merge_by_union` itself begins with
`assert len(A) == 2 and len(B) == 2` over undefined names (`NameError`),
so no pair of identical patterns is ever merged — e.g. `a | a` raises
instead of returning `a`. -/
theorem c6_join_union_identical_branch_raises :
    (match NestedRE.join_union (.str "a" "") (.str "a" "") with
      | .error .attributeError => true
      | _ => false) = true ∧
    (match NestedRE.merge_by_union "a" ["", ""] with
      | .error .nameError => true
      | _ => false) = true := by decide

/-- **C7 (counterexample).** The claim's table says that whenever either
operand's closure is `*`, sequence-merge yields the shared pattern with
closure `+`.  Merging `a*` with `a*` (two values with identical flattened
pattern `a*`, closures `*` and `*`) is the `'*' in C` branch of
`merge_by_intersection`, which returns closure `*`: the result flattens to
`(a*)*`, not the claimed `(a*)+`.  (The code's own docstring lists
`p* ^ p* = p*`, so the code, not the claim's table, is self-consistent.) -/
theorem c7_star_star_gives_star_not_plus :
    (NestedRE.join_intersection (.str "a" "*") (.str "a" "*")).make_flat
      = "(a*)*" ∧ ("(a*)*" : String) ≠ "(a*)+" := by decide

/-- Modelled from the spec's sequence-merge table, amended to what the
code's closure-pair rules actually are (`merge_by_intersection`'s
docstring table): for identical non-ϵ flattened pattern `p` and closure
pair `C = [c1, c2]` — if `C` contains `''`: with `?` ⇒ `(pp)?`, with `*`
⇒ `p+`, with `+` ⇒ `(pp)+`, both plain ⇒ `pp`; otherwise `+` present ⇒
`p+`, else `*` present (both `*`) ⇒ `p*`, else (both `?`) ⇒ `p?p?`. -/
def seqMergeSpec (p c1 c2 : String) : NestedRE :=
  if "" ∈ [c1, c2] then
    if "?" ∈ [c1, c2] then .str (p ++ p) "?"
    else if "*" ∈ [c1, c2] then .str p "+"
    else if "+" ∈ [c1, c2] then .str (p ++ p) "+"
    else .str (p ++ p) ""
  else if "+" ∈ [c1, c2] then .str p "+"
  else if "*" ∈ [c1, c2] then .str p "*"
  else .str (p ++ "?" ++ p ++ "?") ""

/-- **C7 (amended).** For every pair of `NestedRE` values whose flattened
patterns are textually identical and not ϵ, `join_intersection` returns
the value given by the amended closure-pair table `seqMergeSpec`; in
particular `*` with `''` gives `p+`, but `*` with `*` gives `p*`, and `?`
with `?` gives the plain concatenation `p?p?` (with `p` the shared
flattened pattern, which already carries its closure suffix). -/
theorem c7_amended_sequence_merge_follows_code_table (a b : NestedRE)
    (h1 : a.make_flat = b.make_flat) (h2 : a.make_flat ≠ "ϵ") :
    NestedRE.join_intersection a b =
      seqMergeSpec a.make_flat a.closure b.closure := by
  simp only [NestedRE.join_intersection]
  rw [if_pos (⟨h1, h2⟩ : a.make_flat = b.make_flat ∧ a.make_flat ≠ "ϵ")]
  rfl

/-- Witness for C7 (amended) at the concrete pair `a?`, `a?`. -/
theorem c7_amended_witness :
    (NestedRE.str "a" "?").make_flat = (NestedRE.str "a" "?").make_flat ∧
    (NestedRE.str "a" "?").make_flat ≠ "ϵ" ∧
    NestedRE.join_intersection (.str "a" "?") (.str "a" "?") =
      seqMergeSpec (NestedRE.str "a" "?").make_flat "?" "?" :=
  ⟨rfl, by decide, c7_amended_sequence_merge_follows_code_table _ _ rfl (by decide)⟩

/-- **C8.** The claim states the adjacency dimension always stays at least
the highest live id + 1, growing by doubling while preserving cells.  The
growth check `len(self.nodes) > self.esize` runs *before* the append and
counts live nodes, not ids: after 101 `add_node()` calls the highest live
id is 100 while the matrix dimension is still 100.  The 102nd call does
trigger `expand_edges`, which reads `self.edges[i][j]` for
`i ≤ node_index = 101` — past the old 100×100 matrix — and dies with an
`IndexError` (and its comprehension builds `new[j][i] = old[i][j]`, a
transpose, so cells would not be preserved either). -/
theorem c8_growth_lags_behind_live_ids :
    (iterAddNode 101 Automaton.fresh).map (fun A =>
      (A.esize, A.nodes.length, (A.nodes.map Node.index).max?)) =
      .ok (100, 101, some 100) ∧
    iterAddNode 102 Automaton.fresh = .error .indexError := by decide

/-- The automaton `{''}` learning produces before merging: a single node
that is both initial and accepting, with no edges — uniform in the
claim's sense (one initial node with no incoming edges, one accepting
node with no outgoing edges). -/
def uniformEpsRun : Except PyErr Automaton := do
  let (A, _) ← Automaton.fresh.add_node true true ""
  pure A

/-- A two-node uniform automaton (initial `0`, accepting `1`, one
`a`-edge `0 → 1`), used as the concrete instance for the `make_uniform`
idempotence theorem. -/
def uniformPairRun : Except PyErr Automaton := do
  let (A, n0) ← Automaton.fresh.add_node true false ""
  let (A, n1) ← A.add_node false true ""
  let A ← A.add_edge n0.index n1.index "a"
  pure A

/-- The two-node uniform automaton as a value. -/
def uniformPair : Automaton := uniformPairRun.toOption.getD Automaton.fresh

/-- **C9 (counterexample).** The claim states that constructing the
learner on `{""}` (empty after dropping the empty string) fails with a
dedicated `EmptyInputError`.  No such error exists anywhere in the source;
on `[""]` the constructor simply succeeds and learning proceeds. -/
theorem c9_empty_string_only_constructor_succeeds :
    (A0Learner.init [""]).toOption.isSome = true := by decide

/-- **C9 (amended).** On an empty example set the constructor fails with
an ordinary `IndexError` (from `self.S[0]` on the empty sorted list) —
not a dedicated error — and on `{""}` it does not fail at all. -/
theorem c9_amended_init_error_behaviour :
    A0Learner.init [] = .error .indexError ∧
      (A0Learner.init [""]).toOption.isSome = true := by decide

/-- **C10 (counterexample).** The claim states `make_uniform` on an
already-uniform automaton (exactly one initial node with no incoming
edges, exactly one accepting node with no outgoing edges) changes
nothing.  The single-node automaton accepting only ϵ is uniform in
exactly that sense — and the code's own `is_uniform` agrees — yet
`make_uniform` sees `root in accepting_nodes` and converts: it adds a new
root (node 1), reroots, and hangs an ϵ-edge `1 → 0`, so `node_index`
moves from 1 to 2 and the root from 0 to 1. -/
theorem c10_make_uniform_changes_uniform_eps_automaton :
    uniformEpsRun.map (fun A =>
      ((REParser.is_uniform A).toOption, A.node_index, A.root,
        (REParser.make_uniform A).map (fun A' =>
          (A'.node_index, A'.root, A'.accepting, mget2 A'.edges 1 0)))) =
    .ok (some true, 1, some 0, .ok (2, some 1, [0], .ok ["ϵ"])) := by decide

/-- **C10 (amended).** For every well-formed automaton with at least one
accepting node (root and accepting indices within `node_index`, a square
matrix with two spare indices of capacity, and the region beyond
`node_index` empty), calling `make_uniform` twice produces the same
result as calling it once; and on an already-uniform automaton *whose
root is not itself accepting* (the qualification the counterexample
forces), `make_uniform` changes nothing and raises no error. -/
theorem c10_amended_make_uniform_idempotent (A : Automaton) (r : Nat)
    (hroot : A.root = some r) (hr : r < A.node_index)
    (hacc : A.accepting ≠ [])
    (haccb : ∀ a ∈ A.accepting, a < A.node_index)
    (hlen : A.edges.length = A.esize)
    (hrows : ∀ row ∈ A.edges, row.length = A.esize)
    (hcap : A.node_index + 2 ≤ A.esize)
    (hnodes : A.nodes.length + 1 ≤ A.esize)
    (hcols : ∀ row ∈ A.edges, ∀ c ∈ row.drop A.node_index, c = [])
    (hrowse : ∀ row ∈ A.edges.drop A.node_index, ∀ c ∈ row, c = []) :
    ((REParser.make_uniform A >>= REParser.make_uniform) =
      REParser.make_uniform A) ∧
    (∀ f, A.accepting = [f] → r ∉ A.accepting →
      (∀ row ∈ A.edges, row[r]? = some []) →
      (∀ row, A.edges[f]? = some row → ∀ c ∈ row, c = []) →
      REParser.make_uniform A = .ok A) := by
  constructor
  · obtain ⟨A', h1, h2⟩ := make_uniform_settles A r hroot hr hacc haccb hlen
      hrows hcap hnodes hcols hrowse
    rw [h1, exbind_ok, h2]
  · intro f haccf hra hcol hfrow
    have hfm : f ∈ A.accepting := by rw [haccf]; simp
    obtain ⟨row, hrowf, -⟩ := mget_of_lt (l := A.edges) (i := f)
      (by have := haccb f hfm; omega)
    exact make_uniform_noop hroot hra hcol haccf hrowf (hfrow row hrowf)

/-- Witness for C10 (amended) at the two-node uniform automaton. -/
theorem c10_amended_witness :
    (uniformPair.root = some 0 ∧ 0 < uniformPair.node_index ∧
      uniformPair.accepting ≠ [] ∧
      (∀ a ∈ uniformPair.accepting, a < uniformPair.node_index) ∧
      uniformPair.edges.length = uniformPair.esize ∧
      (∀ row ∈ uniformPair.edges, row.length = uniformPair.esize) ∧
      uniformPair.node_index + 2 ≤ uniformPair.esize ∧
      uniformPair.nodes.length + 1 ≤ uniformPair.esize ∧
      (∀ row ∈ uniformPair.edges, ∀ c ∈ row.drop uniformPair.node_index, c = []) ∧
      (∀ row ∈ uniformPair.edges.drop uniformPair.node_index, ∀ c ∈ row, c = [])) ∧
    (((REParser.make_uniform uniformPair >>= REParser.make_uniform) =
        REParser.make_uniform uniformPair) ∧
      (∀ f, uniformPair.accepting = [f] → 0 ∉ uniformPair.accepting →
        (∀ row ∈ uniformPair.edges, row[0]? = some []) →
        (∀ row, uniformPair.edges[f]? = some row → ∀ c ∈ row, c = []) →
        REParser.make_uniform uniformPair = .ok uniformPair)) :=
  ⟨by decide,
    c10_amended_make_uniform_idempotent uniformPair 0 (by decide) (by decide)
      (by decide) (by decide) (by decide) (by decide) (by decide) (by decide)
      (by decide) (by decide)⟩

end A0
